import Mathlib

/-!
Verification development for the card matching and extraction engine of the
PDF_Processor repository (`src/utils/card_matcher.py`, class `CardMatcher`).

Strings from the Python source are modelled as `List Char` (Python `str` is a
sequence of Unicode code points).  Python floats are modelled as exact
rationals (`Rat`); every float literal of the source (`0.15`, `0.85`, the
configuration trust weights) is translated to the rational it denotes in the
source text.  A Python function that can raise an exception observable by its
caller is modelled as returning `Except Unit _`; functions that swallow all
internal exceptions are modelled as total functions.  Effectful collaborators
(the file system listing, image enhancement, and the OCR engine) are modelled
as oracle fields of an `Env` structure: the engine only ever observes their
return values, which is exactly what the oracles supply.
-/

/-- Python `\d` / `str.isdigit` for the ASCII digits that make up the
identifiers this program works with. -/
def isDig (c : Char) : Bool := c.isDigit

/-- Python `\s` / `str.split()` whitespace test. -/
def isWS (c : Char) : Bool := c.isWhitespace

/-- Python `str.lower()` (ASCII case folding; the Arabic characters used by
the source are unaffected by lowering in both models). -/
def pyLower (s : List Char) : List Char := s.map Char.toLower

/-- Auxiliary accumulator version of `pywords`. -/
def pywordsAux : List Char → List Char → List (List Char)
  | [], acc => if acc.isEmpty then [] else [acc.reverse]
  | c :: cs, acc =>
    if isWS c then
      if acc.isEmpty then pywordsAux cs [] else acc.reverse :: pywordsAux cs []
    else pywordsAux cs (c :: acc)

/-- Python `str.split()` with no argument: split on whitespace runs, dropping
empty pieces. -/
def pywords (s : List Char) : List (List Char) := pywordsAux s []

/-- Python `str.strip()` (strip whitespace from both ends). -/
def pyStrip (s : List Char) : List Char :=
  ((s.dropWhile isWS).reverse.dropWhile isWS).reverse

/-- Python `str.strip('_')`-style strip of one given character from both
ends. -/
def stripChar (c : Char) (s : List Char) : List Char :=
  ((s.dropWhile (· == c)).reverse.dropWhile (· == c)).reverse

/-- Python substring containment `pat in s`. -/
def isSubstring (pat : List Char) : List Char → Bool
  | [] => pat.isEmpty
  | c :: cs => pat.isPrefixOf (c :: cs) || isSubstring pat cs

/-- Case-insensitive prefix test against an already-lowercase pattern,
modelling a `re.IGNORECASE` literal match. -/
def ciPrefix (pat s : List Char) : Bool := pat.isPrefixOf (pyLower (s.take pat.length))

/-- Characters of the Arabic letter class `[ا-ي]` used throughout
the source's regular expressions. -/
def isArabicChar (c : Char) : Bool := 0x627 ≤ c.toNat && c.toNat ≤ 0x64a

/-- Count of Arabic-class characters, `len(re.findall(r'[ا-ي]', s))`. -/
def countArabic (s : List Char) : Nat := (s.filter isArabicChar).length

/-- Count of ASCII letters, `len(re.findall(r'[a-zA-Z]', s))`. -/
def countEnglish (s : List Char) : Nat :=
  (s.filter (fun c => ('a' ≤ c && c ≤ 'z') || ('A' ≤ c && c ≤ 'Z'))).length

/-- Python truthiness of an optional string (`None` and `''` are falsy). -/
def pyTruthy : Option (List Char) → Bool
  | none => false
  | some s => !s.isEmpty

/-- Python `str` comparison `a <= b` (lexicographic on code points, a proper
prefix precedes its extensions). -/
def strLe : List Char → List Char → Bool
  | [], _ => true
  | _ :: _, [] => false
  | a :: as, b :: bs => if a < b then true else if b < a then false else strLe as bs

/-! ### Keyword stripping and separator collapsing (`_extract_id_from_filename`,
`_clean_filename_for_id`) -/

/-- The alternation `(card|id|front|back|f|b|وش|ضهر)` of
`_extract_id_from_filename` (source line 741), in source order. -/
def kwList : List (List Char) :=
  ["card".data, "id".data, "front".data, "back".data, "f".data, "b".data,
   "وش".data, "ضهر".data]

/-- Length of the first keyword of `kwList` matching (case-insensitively) at
the head of `s`, if any: one step of `re.sub(r'(card|id|front|back|f|b|وش|ضهر)',
'', s, flags=re.IGNORECASE)`. -/
def kwMatch (s : List Char) : Option Nat :=
  (kwList.find? (fun k => ciPrefix k s)).map List.length

/-- Worker for `stripKeywords`: when `skip` is positive we are inside an
already-matched keyword and discard that many characters before scanning
again. -/
def stripKeywordsAux : Nat → List Char → List Char
  | _, [] => []
  | skip + 1, _ :: cs => stripKeywordsAux skip cs
  | 0, c :: cs =>
    match kwMatch (c :: cs) with
    | some n => stripKeywordsAux (n - 1) cs
    | none => c :: stripKeywordsAux 0 cs

/-- The keyword-removal `re.sub` of `_extract_id_from_filename` line 741:
scan left to right, at each position removing the first matching alternative
and resuming after it. -/
def stripKeywords (l : List Char) : List Char := stripKeywordsAux 0 l

/-- Python separator class `[_\-\s]`. -/
def isSep (c : Char) : Bool := c == '_' || c == '-' || isWS c

/-- Worker for `collapseSeps`; `inRun` records whether the previous character
was a separator (whose run already produced its underscore). -/
def collapseSepsAux : Bool → List Char → List Char
  | _, [] => []
  | inRun, c :: cs =>
    if isSep c then
      if inRun then collapseSepsAux true cs else '_' :: collapseSepsAux true cs
    else c :: collapseSepsAux false cs

/-- The separator collapse `re.sub(r'[_\-\s]+', '_', s)`: each maximal run of
separators becomes a single underscore. -/
def collapseSeps (l : List Char) : List Char := collapseSepsAux false l

/-! ### Regular-expression scanners for the identifier patterns

Each of the nine `id_patterns` (source lines 23–33) is translated as a
"match at this position" function; `scanFirst` runs it at every position left
to right and returns the first hit, which is the digit group of the first
`re.findall` match — exactly the value `_extract_id_from_filename` returns
for that pattern. -/

/-- Leftmost-match regex scan: try `step` at each suffix, left to right. -/
def scanFirst (step : List Char → Option (List Char)) : List Char → Option (List Char)
  | [] => step []
  | c :: cs =>
    match step (c :: cs) with
    | some r => some r
    | none => scanFirst step cs

/-- Match `\d{k}` at the current position (digit group of patterns built on
`\d{14}`). -/
def matchDigitsExact (k : Nat) (l : List Char) : Option (List Char) :=
  if k ≤ (l.takeWhile isDig).length then some (l.take k) else none

/-- Match `\d{m,}` at the current position (greedy, so the whole digit run
from here). -/
def matchRunAtLeast (m : Nat) (l : List Char) : Option (List Char) :=
  let t := l.takeWhile isDig
  if m ≤ t.length then some t else none

/-- Match `TAG_?(\d{14})` at the current position (patterns `ID_?(\d{14})`
and `CARD_?(\d{14})`, case-insensitive), returning the digit group. -/
def matchTagged (tag : List Char) (l : List Char) : Option (List Char) :=
  if ciPrefix tag l then
    let r := l.drop tag.length
    if r.head? = some '_' then matchDigitsExact 14 (r.drop 1) else matchDigitsExact 14 r
  else none

/-- The side markers `FRONT|BACK|وش|ضهر` of patterns 4 and 5 (source lines
27–28). -/
def sideMarkers : List (List Char) :=
  ["front".data, "back".data, "وش".data, "ضهر".data]

/-- Match `(\d{14})_?(FRONT|BACK|وش|ضهر)` at the current position, returning
the digit group. -/
def matchDigitsMarker (l : List Char) : Option (List Char) :=
  if 14 ≤ (l.takeWhile isDig).length then
    let r := l.drop 14
    let r' := if r.head? = some '_' then r.drop 1 else r
    if sideMarkers.any (fun m => ciPrefix m r') then some (l.take 14) else none
  else none

/-- Match `(FRONT|BACK|وش|ضهر)_?(\d{14})` at the current position, returning
the digit group. -/
def matchMarkerDigits (l : List Char) : Option (List Char) :=
  match sideMarkers.find? (fun m => ciPrefix m l) with
  | some m =>
    let r := l.drop m.length
    if r.head? = some '_' then matchDigitsExact 14 (r.drop 1) else matchDigitsExact 14 r
  | none => none

/-- The body of `_extract_id_from_filename` (source lines 737–757): strip the
keywords, collapse separators, strip outer underscores, then return the digit
group of the first match of the first pattern that matches. -/
def extract_id_from_filename (filename : List Char) : Option (List Char) :=
  let f := stripChar '_' (collapseSeps (stripKeywords filename))
  (scanFirst (matchDigitsExact 14) f).orElse fun _ =>
  (scanFirst (matchTagged "id".data) f).orElse fun _ =>
  (scanFirst (matchTagged "card".data) f).orElse fun _ =>
  (scanFirst matchDigitsMarker f).orElse fun _ =>
  (scanFirst matchMarkerDigits f).orElse fun _ =>
  (scanFirst (matchRunAtLeast 10) f).orElse fun _ =>
  (scanFirst (matchRunAtLeast 8) f).orElse fun _ =>
  (scanFirst (matchRunAtLeast 5) f).orElse fun _ =>
  scanFirst (matchRunAtLeast 1) f

/-- The fallback `_clean_filename_for_id` (source lines 802–811): collapse
separators, strip outer underscores, return the first `'_'`-separated
segment.  (Python `split('_')` never yields an empty list, so the
`if parts else filename` guard of line 811 is unreachable.) -/
def clean_filename_for_id (filename : List Char) : List Char :=
  let cleaned := stripChar '_' (collapseSeps filename)
  cleaned.takeWhile (· ≠ '_')

/-- The OCR / final-fallback tail of `_extract_card_id` (source lines
726–735).  `ocrId` is the oracle result of `_extract_id_from_image` on the
enhanced image (`none` both when OCR finds nothing and when it raises, since
the call is wrapped in `try/except`). -/
def extract_card_id_rest (useOcr enhancedPresent : Bool) (ocrId : Option (List Char))
    (filename : List Char) : List Char :=
  if useOcr && enhancedPresent then
    match ocrId with
    | some cid => if cid.isEmpty then clean_filename_for_id filename else cid
    | none => clean_filename_for_id filename
  else clean_filename_for_id filename

/-- Function `_extract_card_id` (source lines 714–735): lowercase the stem, try
filename patterns, then OCR (if enabled and an enhanced image exists), then
the filename fallback. -/
def extract_card_id (useOcr enhancedPresent : Bool) (ocrId : Option (List Char))
    (stem : List Char) : List Char :=
  let filename := pyLower stem
  match extract_id_from_filename filename with
  | some cid =>
    if cid.isEmpty then extract_card_id_rest useOcr enhancedPresent ocrId filename else cid
  | none => extract_card_id_rest useOcr enhancedPresent ocrId filename

/-! ### Side classification (`_determine_side`) -/

/-- Side of a card image. -/
inductive Side where
  | front
  | back
deriving DecidableEq, Repr

/-- The back keyword list `self.back_keywords` (source line 37). -/
def backKeywords : List (List Char) :=
  ["back".data, "b".data, "ضهر".data, "خلف".data, "rear".data]

/-- The front keyword list `self.front_keywords` (source line 36). -/
def frontKeywords : List (List Char) :=
  ["front".data, "f".data, "وش".data, "امام".data, "face".data]

/-- Function `_determine_side` (source lines 784–800): lowercase the full file name,
check back keywords first, then front keywords, defaulting to front. -/
def determine_side (fname : List Char) : Side :=
  let filename := pyLower fname
  if backKeywords.any (fun k => isSubstring k filename) then .back
  else if frontKeywords.any (fun k => isSubstring k filename) then .front
  else .front

/-! ### Confidence scoring (`_calculate_extraction_confidence`,
`_calculate_name_confidence_advanced`, `_calculate_region_confidence`,
`_calculate_context_confidence`) -/

/-- Function `_calculate_extraction_confidence` (source lines 653–676).  The `image`
parameter of the Python function is unused, so it is omitted.  The division
by `len(name.replace(' ', ''))` raises `ZeroDivisionError` when the name is a
non-empty string of spaces; that is the `.error` case. -/
def calc_extraction_confidence (name : List Char) : Except Unit Rat :=
  if name.isEmpty then .ok 0
  else
    let words := pywords name
    let c1 : Rat := 50
    let c2 := if 3 ≤ words.length ∧ words.length ≤ 4 then c1 + 25
              else if words.length = 2 then c1 + 15 else c1
    let c3 := if 10 ≤ name.length ∧ name.length ≤ 35 then c2 + 20 else c2
    let nonSpace := (name.filter (· ≠ ' ')).length
    if nonSpace = 0 then .error ()
    else .ok (min 100 (c3 + ((countArabic name : Rat) / (nonSpace : Rat)) * 25))

/-- The per-token OCR output of `pytesseract.image_to_data(...)` as consumed
by `_calculate_name_confidence_advanced`: the `'text'` and `'conf'` lists. -/
structure OcrData where
  text : List (List Char)
  conf : List Int
deriving DecidableEq, Repr

/-- The inner loop of `_calculate_name_confidence_advanced` lines 565–569 for
one word: over `enumerate(ocr_data['text'])`, add
`max(0, conf[i] - 50) * 0.15` whenever the word occurs in the token and the
confidence list is long enough. -/
def wordOcrBonus (w : List Char) (confs : List Int) : Nat → List (List Char) → Rat
  | _, [] => 0
  | i, t :: ts =>
    (if isSubstring w t ∧ i < confs.length then
      ((max 0 ((confs.getD i 0) - 50) : Int) : Rat) * (15 / 100)
    else 0) + wordOcrBonus w confs (i + 1) ts

/-- Function `_calculate_name_confidence_advanced` (source lines 548–575).  The float
literal `0.15` is modelled as the rational `15/100`.  The division by
`len(name.replace(' ', ''))` raises on a space-only name (`.error`). -/
def calc_name_confidence_advanced (name : List Char) (d : OcrData) : Except Unit Rat :=
  let words := pywords name
  let c1 : Rat := if 2 ≤ words.length ∧ words.length ≤ 4 then 40 else 20
  let nonSpace := (name.filter (· ≠ ' ')).length
  if nonSpace = 0 then .error ()
  else
    let c2 := c1 + ((countArabic name : Rat) / (nonSpace : Rat)) * 30
    let c3 := words.foldl (fun acc w => acc + wordOcrBonus w d.conf 0 d.text) c2
    let c4 := if 8 ≤ name.length ∧ name.length ≤ 35 then c3 + 15 else c3
    .ok (min 100 (max 0 c4))

/-- The OCR configuration table of `_ai_extract_name_multi_method`
(source lines 299–305): configuration string, description, trust weight.
Float weights are modelled by the rationals they denote in the source text. -/
def ocr_configs : List (String × String × Rat) :=
  [("--oem 3 --psm 6 -l ara+eng", "General layout", 1),
   ("--oem 3 --psm 7 -l ara+eng", "Single text line", 9 / 10),
   ("--oem 1 --psm 6 -l ara+eng", "LSTM neural net", 11 / 10),
   ("--oem 3 --psm 4 -l ara+eng", "Single column", 8 / 10),
   ("--oem 3 --psm 11 -l ara+eng", "Sparse text", 7 / 10)]

/-- The confidence recorded for a validated candidate by the
multi-configuration method (source line 320):
`_calculate_name_confidence_advanced(candidate, data) * weight`. -/
def multiConfigScore (name : List Char) (d : OcrData) (weight : Rat) : Except Unit Rat :=
  (calc_name_confidence_advanced name d).map (· * weight)

/-- Function `_validate_name_ai` (source lines 523–546).  The float literal `0.85` is
modelled as the rational `85/100`. -/
def validate_name_ai (name : List Char) : Bool :=
  if name.isEmpty || (pyStrip name).length < 4 then false
  else
    let words := pywords name
    if !(2 ≤ words.length && words.length ≤ 5) then false
    else
      let letters := countArabic name + countEnglish name
      let nonSpace := (name.filter (· ≠ ' ')).length
      if ((letters : Rat) < (nonSpace : Rat) * (85 / 100) : Bool) then false
      else words.all (fun w => 2 ≤ w.length && w.length ≤ 15)

/-! ### Candidate selection (`_ai_select_best_name`,
`_normalize_name_for_comparison`) -/

/-- Replace each whitespace run by a single space: `re.sub(r'\s+', ' ', s)`. -/
def collapseWS : Bool → List Char → List Char
  | _, [] => []
  | inRun, c :: cs =>
    if isWS c then
      if inRun then collapseWS true cs else ' ' :: collapseWS true cs
    else c :: collapseWS false cs

/-- Arabic diacritics class `[ً-ْ]` removed by the normalizer. -/
def isDiacritic (c : Char) : Bool := 0x64b ≤ c.toNat && c.toNat ≤ 0x652

/-- Function `_normalize_name_for_comparison` (source lines 678–683): lowercase,
strip, collapse whitespace, remove diacritics. -/
def normalize_name_for_comparison (name : List Char) : List Char :=
  (collapseWS false (pyStrip (pyLower name))).filter (fun c => !isDiacritic c)

/-- The deduplication dictionary build of `_ai_select_best_name` lines
613–617: an insertion-ordered map from normalized key to the best
`(candidate, score)` pair, keeping the earlier pair on equal scores. -/
def dedupCandidates (pairs : List (List Char × Rat)) :
    List (List Char × List Char × Rat) :=
  pairs.foldl (fun m cs =>
    let key := normalize_name_for_comparison cs.1
    match m.find? (fun e => e.1 == key) with
    | none => m ++ [(key, cs)]
    | some e =>
      if e.2.2 < cs.2 then
        m.map (fun e' => if e'.1 == key then (e'.1, cs) else e')
      else m) []

/-- The four-component ranking key of `_ai_select_best_name` lines 621–626:
(score, word count, negated distance from 3 words, length). -/
def selectKey (cs : List Char × Rat) : Rat × Nat × Int × Nat :=
  (cs.2, (pywords cs.1).length,
   -((pywords cs.1).length - 3 : Int).natAbs, cs.1.length)

/-- Does `a` rank at least as high as `b` (lexicographically on
`selectKey`)?  `list.sort(key=..., reverse=True)` is a stable sort by this
relation. -/
def keyGe (a b : List Char × Rat) : Bool :=
  let (s₁, w₁, d₁, l₁) := selectKey a
  let (s₂, w₂, d₂, l₂) := selectKey b
  if s₁ ≠ s₂ then s₂ < s₁
  else if w₁ ≠ w₂ then w₂ < w₁
  else if d₁ ≠ d₂ then d₂ < d₁
  else l₂ ≤ l₁

/-- Function `_ai_select_best_name` (source lines 603–631): zip candidates with
scores (Python `zip` truncates to the shorter list), deduplicate by
normalized form keeping the higher score, stably sort descending by the
ranking key, and return the top candidate if any. -/
def ai_select_best_name (candidates : List (List Char)) (scores : List Rat) :
    Option (List Char) :=
  if candidates.isEmpty then none
  else
    let scored := candidates.zip scores
    let unique := (dedupCandidates scored).map (·.2)
    let final := unique.mergeSort keyGe
    match final with
    | best :: _ => some best.1
    | [] => none

/-! ### The aggregator (`match_cards`, `_cross_validate_names`)

The per-run state `card_data` is a Python dict from identifier to a record
`{'front': ..., 'back': ..., 'name': ..., 'confidence': ...}`; dicts preserve
insertion order, so it is modelled as an insertion-ordered association list
with unique keys. -/

/-- One image file as seen by the aggregator (a `pathlib.Path`): its stem and
its full name. -/
structure PyFile where
  stem : List Char
  name : List Char
deriving DecidableEq, Repr

/-- The per-identifier record of `card_data` (source line 112). -/
structure CardRec where
  front : Option PyFile
  back : Option PyFile
  name : Option (List Char)
  confidence : Rat
deriving DecidableEq, Repr

/-- The fresh record `{'front': None, 'back': None, 'name': None,
'confidence': 0}` of source line 112. -/
def emptyRec : CardRec := ⟨none, none, none, 0⟩

/-- The association list modelling the `card_data` dict. -/
abbrev CardData := List (List Char × CardRec)

/-- Dict lookup `card_data.get(card_id)`. -/
def lookupRec (st : CardData) (k : List Char) : Option CardRec :=
  (st.find? (fun kv => kv.1 == k)).map (·.2)

/-- Dict update of the record stored at key `k` (in place, preserving
insertion order). -/
def updateRec (st : CardData) (k : List Char) (g : CardRec → CardRec) : CardData :=
  st.map (fun kv => if kv.1 == k then (kv.1, g kv.2) else kv)

/-- The environment of effectful collaborators observed by one matching run.
`Img` is the (opaque) type of enhanced images.
* `listing` — result of `_get_image_files` (`.error` when listing the
  directory raises, which lines 77–79 absorb);
* `enhance` — the per-file entry of the `enhanced_images` dict built by
  `_batch_enhance_images` (`none` when enhancement failed for that file);
* `extractName` — result of `_ai_extract_name_multi_method` for a file and
  optional enhanced image (total: the method catches all its exceptions and
  returns `None` on failure);
* `extractNameCV` — result of the distinct `_ai_extract_name_multi_method`
  invocation made by `_cross_validate_names` line 646 (the OCR engine is not
  a pure function of its arguments — timeouts and engine state make separate
  invocations independent — so each textual call site is its own oracle);
* `ocrIdFromImage` — result of `_extract_id_from_image` on an enhanced image
  (total for the same reason);
* `fails` — whether the body of the per-image loop raises unexpectedly
  before touching `card_data` (the `except` of lines 140–150 then skips the
  image). -/
structure Env (Img : Type) where
  useOcr : Bool
  listing : Except Unit (List PyFile)
  enhance : PyFile → Option Img
  extractName : PyFile → Option Img → Option (List Char)
  extractNameCV : PyFile → Option Img → Option (List Char)
  ocrIdFromImage : Img → Option (List Char)
  fails : PyFile → Bool

/-- The name/confidence upgrade repeated at source lines 119–121, 124–126,
131–133 and 136–138: `if name and name_confidence > record['confidence']:
replace name and confidence`. -/
def maybeUpgrade (name : Option (List Char)) (conf : Rat) (r : CardRec) : CardRec :=
  if pyTruthy name ∧ r.confidence < conf then { r with name := name, confidence := conf }
  else r

/-- The slot-assignment ladder of source lines 117–138: classified side's
slot if free, otherwise whichever slot is free, otherwise drop the image. -/
def assignSlot (f : PyFile) (side : Side) (name : Option (List Char)) (conf : Rat)
    (r : CardRec) : CardRec :=
  if side = .front ∧ r.front = none then maybeUpgrade name conf { r with front := some f }
  else if side = .back ∧ r.back = none then maybeUpgrade name conf { r with back := some f }
  else if r.front = none then maybeUpgrade name conf { r with front := some f }
  else if r.back = none then maybeUpgrade name conf { r with back := some f }
  else r

/-- One iteration of the stage-2 loop of `match_cards` (source lines
89–150) folding one file into `card_data`.  The record for a new identifier
is created (line 112) before the confidence call of line 115, so a
`ZeroDivisionError` there leaves the fresh record behind and skips the rest
of the body. -/
def stepImage {Img : Type} (env : Env Img) (st : CardData) (f : PyFile) : CardData :=
  if env.fails f then st
  else
    let enhanced := env.enhance f
    let cid := extract_card_id env.useOcr enhanced.isSome
      (enhanced.bind env.ocrIdFromImage) f.stem
    let side := determine_side f.name
    let name := if env.useOcr then env.extractName f enhanced else none
    if cid.isEmpty then st
    else
      let st1 := if (lookupRec st cid).isSome then st else st ++ [(cid, emptyRec)]
      match (if pyTruthy name then calc_extraction_confidence (name.getD []) else .ok 0 :
          Except Unit Rat) with
      | .error _ => st1
      | .ok conf => updateRec st1 cid (assignSlot f side name conf)

/-- The "other image" choice of `_cross_validate_names` line 642:
`data['back'] if data['front'] else data['front']`. -/
def cross_other (r : CardRec) : Option PyFile :=
  if r.front.isSome then r.back else r.front

/-- The body of the `_cross_validate_names` loop (source lines 639–651) for
one record.  `files` is the key set of the `enhanced_images` dict (one entry
per listed file).  The confidence call of line 648 is not guarded by any
`try`, so its `ZeroDivisionError` propagates (`.error`). -/
def crossValidateRec {Img : Type} (env : Env Img) (files : List PyFile) (r : CardRec) :
    Except Unit CardRec :=
  if pyTruthy r.name ∧ (pywords (r.name.getD [])).length < 3 then
    match cross_other r with
    | some o =>
      if o ∈ files then
        match env.enhance o with
        | some img =>
          match env.extractNameCV o (some img) with
          | some alt =>
            if !alt.isEmpty ∧ 3 ≤ (pywords alt).length then
              match calc_extraction_confidence alt with
              | .error e => .error e
              | .ok c =>
                if r.confidence < c then .ok { r with name := some alt, confidence := c }
                else .ok r
            else .ok r
          | none => .ok r
        | none => .ok r
      else .ok r
    | none => .ok r
  else .ok r

/-- Function `_cross_validate_names` (source lines 633–651): revisit every record in
dict order; an uncaught exception aborts the loop and propagates. -/
def crossValidate {Img : Type} (env : Env Img) (files : List PyFile) :
    CardData → Except Unit CardData
  | [] => .ok []
  | (k, r) :: rest => do
    let r' ← crossValidateRec env files r
    let rest' ← crossValidate env files rest
    .ok ((k, r') :: rest')

/-- One emitted tuple `(card_id, front, back, name)` (source line 173). -/
abbrev CardPair := List Char × PyFile × Option PyFile × Option (List Char)

/-- The emission of `match_cards` lines 169–175: keep records with an
occupied front slot, as `(identifier, front, back, name)` tuples, sorted by
the identifier's string form (`sorted(card_pairs, key=lambda x: str(x[0]))`,
a stable ascending sort). -/
def emitRecords (st : CardData) : List CardPair :=
  (st.filterMap (fun kv => kv.2.front.map (fun fr => (kv.1, fr, kv.2.back, kv.2.name)))).mergeSort
    (fun a b => strLe a.1 b.1)

/-- Function `match_cards` (source lines 65–175).  A listing failure or an empty
listing returns `[]` (lines 71–79); stage 2 folds every file into
`card_data`; stage 3 cross-validates (whose uncaught exceptions would escape
`match_cards`, hence the `Except`); finally the records with a front image
are emitted in sorted order. -/
def match_cards {Img : Type} (env : Env Img) : Except Unit (List CardPair) :=
  match env.listing with
  | .error _ => .ok []
  | .ok files =>
    if files.isEmpty then .ok []
    else
      match crossValidate env files (files.foldl (stepImage env) []) with
      | .error e => .error e
      | .ok st2 => .ok (emitRecords st2)

/-- Stored confidence of an identifier: `0` before its record exists. -/
def confOf (st : CardData) (k : List Char) : Rat :=
  match lookupRec st k with
  | some r => r.confidence
  | none => 0

/-! ### Statement vocabulary

Notions used to state the claims (not part of the program): maximal digit
runs of a string, and the suffix-closed "no digit run of length `k`"
predicate. -/

/-- The maximal digit runs of a string, leftmost first. -/
def digitRuns : List Char → List (List Char)
  | [] => []
  | c :: cs =>
    if isDig c then ((c :: cs).takeWhile isDig) :: digitRuns ((c :: cs).dropWhile isDig)
    else digitRuns cs
termination_by l => l.length
decreasing_by
  all_goals simp_all [List.dropWhile_cons]
  exact Nat.lt_succ_of_le (List.Sublist.length_le (List.dropWhile_sublist (p := isDig)))

/-- No suffix of `l` starts with `k` consecutive digits — equivalently, `l`
has no digit run of length at least `k`. -/
def noKrun (k : Nat) (l : List Char) : Prop :=
  ∀ t, t <:+ l → (t.takeWhile isDig).length < k

-- Quick sanity examples while developing (concrete ground truths from the spec).
example : extract_id_from_filename "00011112222333_front".data = some "00011112222333".data := by
  decide
example : extract_id_from_filename "_".data = none := by decide
example : clean_filename_for_id "_".data = [] := by decide
example : extract_card_id false false none "_".data = [] := by decide
example : extract_id_from_filename "a12x345".data = some "12".data := by decide
example : determine_side "29912345678901_front_back.jpg".data = .back := by decide
example : determine_side "00011112222333_front.jpg".data = .front := by decide

/-- A run whose directory holds a single orphan front image. -/
def orphanFile : PyFile := ⟨"00011112222333_front".data, "00011112222333_front.jpg".data⟩

/-- Environment for the orphan-front run (no OCR). -/
def orphanEnv : Env Unit :=
  ⟨false, .ok [orphanFile], fun _ => none, fun _ _ => none, fun _ _ => none,
   fun _ => none, fun _ => false⟩

example :
    stepImage orphanEnv [] orphanFile =
      [("00011112222333".data, ⟨some orphanFile, none, none, 0⟩)] := by
  norm_num +decide [stepImage, orphanEnv, orphanFile,
    extract_card_id, extract_card_id_rest, extract_id_from_filename, determine_side,
    lookupRec, updateRec, emptyRec, calc_extraction_confidence, pyTruthy, assignSlot,
    maybeUpgrade, pywords, pywordsAux, countArabic, isWS, isArabicChar, isSubstring,
    backKeywords, frontKeywords, pyLower, stripKeywords, stripKeywordsAux, kwMatch, kwList,
    ciPrefix, collapseSeps, collapseSepsAux, isSep, stripChar, scanFirst, matchDigitsExact,
    matchRunAtLeast, matchTagged, matchDigitsMarker, matchMarkerDigits, sideMarkers, isDig,
    clean_filename_for_id]

/-- The back and front images of the run exhibiting the cross-validation
divergence. -/
def cvBackFile : PyFile := ⟨"12345_back".data, "12345_back.jpg".data⟩

/-- Front image of the cross-validation run. -/
def cvFrontFile : PyFile := ⟨"12345_front".data, "12345_front.jpg".data⟩

/-- Environment for the cross-validation run: OCR on; the back image's
stage-2 extraction yields the two-word name, the front image never yields a
name, and the cross-validation re-extraction yields a three-word name on the
back image only. -/
def cvEnv : Env Unit :=
  ⟨true, .ok [cvBackFile, cvFrontFile], fun _ => some (),
   fun f _ => if f = cvBackFile then some "اب جد".data else none,
   fun f _ => if f = cvBackFile then some "ابج ابج ابج".data else none,
   fun _ => none, fun _ => false⟩

example :
    stepImage cvEnv [] cvBackFile =
      [("12345".data, ⟨none, some cvBackFile, some "اب جد".data, 90⟩)] := by
  norm_num +decide [stepImage, cvEnv, cvBackFile, cvFrontFile, orphanEnv, orphanFile,
    extract_card_id, extract_card_id_rest, extract_id_from_filename, determine_side,
    lookupRec, updateRec, emptyRec, calc_extraction_confidence, pyTruthy, assignSlot,
    maybeUpgrade, pywords, pywordsAux, countArabic, isWS, isArabicChar, isSubstring,
    backKeywords, frontKeywords, pyLower, stripKeywords, stripKeywordsAux, kwMatch, kwList,
    ciPrefix, collapseSeps, collapseSepsAux, isSep, stripChar, scanFirst, matchDigitsExact,
    matchRunAtLeast, matchTagged, matchDigitsMarker, matchMarkerDigits, sideMarkers, isDig,
    clean_filename_for_id]

example : calc_extraction_confidence "اب جد".data = .ok 90 := by
  norm_num +decide [calc_extraction_confidence, pywords, pywordsAux, countArabic, isWS, isArabicChar]
example : calc_extraction_confidence "ابج ابج ابج".data = .ok 100 := by
  norm_num +decide [calc_extraction_confidence, pywords, pywordsAux, countArabic, isWS, isArabicChar]

example : validate_name_ai "ابجد ابجد".data = true := by
  norm_num +decide [validate_name_ai, pywords, pywordsAux, countArabic, countEnglish, isWS, pyStrip]
example :
    multiConfigScore "ابجد ابجد".data ⟨["ابجد".data], [100]⟩ (11 / 10) = .ok 110 := by
  norm_num +decide [multiConfigScore, calc_name_confidence_advanced, pywords, pywordsAux,
    countArabic, isWS, isArabicChar, wordOcrBonus, isSubstring, Except.map]

/-- Environment whose directory listing raises (the `except` of
`match_cards` lines 77–79). -/
def errEnv : Env Unit :=
  ⟨false, .error (), fun _ => none, fun _ _ => none, fun _ _ => none,
   fun _ => none, fun _ => false⟩

/-- Modelled from the amended claim C2 (refinement reference, written from
the amended words, to be compared with `crossValidateRec`): for a record
whose stored name has fewer than 3 words, re-extract from the back image
when the front slot is occupied — regardless of which side the stored name
came from — and from nothing otherwise; replace only when the alternative
has at least 3 words and strictly higher confidence. -/
def crossValidateRecAmendedSpec {Img : Type} (env : Env Img) (files : List PyFile)
    (r : CardRec) : Except Unit CardRec :=
  if pyTruthy r.name ∧ (pywords (r.name.getD [])).length < 3 then
    match (if r.front.isSome then r.back else none) with
    | some o =>
      if o ∈ files then
        match env.enhance o with
        | some img =>
          match env.extractNameCV o (some img) with
          | some alt =>
            if !alt.isEmpty ∧ 3 ≤ (pywords alt).length then
              match calc_extraction_confidence alt with
              | .error e => .error e
              | .ok c =>
                if r.confidence < c then .ok { r with name := some alt, confidence := c }
                else .ok r
            else .ok r
          | none => .ok r
        | none => .ok r
      else .ok r
    | none => .ok r
  else .ok r

/-! ### Supporting lemmas for the identifier-pattern scanners -/

theorem takeWhile_dropWhile_nil (p : Char → Bool) (l : List Char) :
    (l.dropWhile p).takeWhile p = [] := by
  induction l with
  | nil => rfl
  | cons c cs ih =>
    by_cases h : p c
    · simpa [List.dropWhile_cons, h] using ih
    · simp [List.dropWhile_cons, h, List.takeWhile_cons, h]

theorem scanFirst_eq_none {step : List Char → Option (List Char)} {l : List Char}
    (h : ∀ t, t <:+ l → step t = none) : scanFirst step l = none := by
  induction l with
  | nil => simpa [scanFirst] using h [] (List.suffix_refl [])
  | cons c cs ih =>
    have h0 := h (c :: cs) (List.suffix_refl _)
    simp only [scanFirst, h0]
    exact ih (fun t ht => h t (ht.trans (List.suffix_cons c cs)))

theorem noKrun_mono {j k : Nat} (hjk : j ≤ k) {l : List Char} (h : noKrun j l) :
    noKrun k l :=
  fun t ht => lt_of_lt_of_le (h t ht) hjk

theorem matchRunAtLeast_eq_none {m : Nat} {l t : List Char} (h : noKrun m l)
    (ht : t <:+ l) : matchRunAtLeast m t = none := by
  have hlt := h t ht
  simp only [matchRunAtLeast]
  rw [if_neg]
  omega

theorem matchDigitsExact_eq_none {k : Nat} {l t : List Char} (h : noKrun k l)
    (ht : t <:+ l) : matchDigitsExact k t = none := by
  have hlt := h t ht
  simp only [matchDigitsExact]
  rw [if_neg]
  omega

theorem matchTagged_eq_none {tag : List Char} {l t : List Char} (h : noKrun 14 l)
    (ht : t <:+ l) : matchTagged tag t = none := by
  have hr : t.drop tag.length <:+ l := (List.drop_suffix _ _).trans ht
  have hr1 : (t.drop tag.length).drop 1 <:+ l := (List.drop_suffix _ _).trans hr
  simp only [matchTagged]
  split
  · split
    · exact matchDigitsExact_eq_none h hr1
    · exact matchDigitsExact_eq_none h hr
  · rfl

theorem matchDigitsMarker_eq_none {l t : List Char} (h : noKrun 14 l)
    (ht : t <:+ l) : matchDigitsMarker t = none := by
  have hlt := h t ht
  simp only [matchDigitsMarker]
  rw [if_neg]
  omega

theorem matchMarkerDigits_eq_none {l t : List Char} (h : noKrun 14 l)
    (ht : t <:+ l) : matchMarkerDigits t = none := by
  have hr : ∀ n : Nat, t.drop n <:+ l := fun n => (List.drop_suffix _ _).trans ht
  have hr1 : ∀ n : Nat, (t.drop n).drop 1 <:+ l :=
    fun n => (List.drop_suffix _ _).trans (hr n)
  simp only [matchMarkerDigits]
  split
  · split
    · exact matchDigitsExact_eq_none h (hr1 _)
    · exact matchDigitsExact_eq_none h (hr _)
  · rfl

theorem scanFirst_run_one : ∀ l : List Char,
    scanFirst (matchRunAtLeast 1) l = (digitRuns l).head?
  | [] => by simp [scanFirst, matchRunAtLeast, digitRuns]
  | c :: cs => by
    by_cases h : isDig c
    · rw [digitRuns]
      simp [scanFirst, matchRunAtLeast, List.takeWhile_cons, h]
    · rw [digitRuns]
      simp only [scanFirst, matchRunAtLeast, List.takeWhile_cons, h]
      simpa [h] using scanFirst_run_one cs

theorem digitRuns_all_digits : ∀ (l : List Char), ∀ r ∈ digitRuns l, ∀ c ∈ r, isDig c
  | [] => by simp [digitRuns]
  | c :: cs => by
    by_cases h : isDig c
    · rw [digitRuns]
      simp only [if_pos h, List.mem_cons]
      rintro r (rfl | hr)
      · exact fun x hx => List.mem_takeWhile_imp hx
      · exact digitRuns_all_digits _ r hr
    · rw [digitRuns]
      simp only [if_neg h]
      exact digitRuns_all_digits cs
  termination_by l => l.length
  decreasing_by
    · have h1 : (c :: cs).dropWhile isDig = cs.dropWhile isDig := by
        simp [List.dropWhile_cons, h]
      rw [h1, List.length_cons]
      exact Nat.lt_succ_of_le (List.Sublist.length_le (List.dropWhile_sublist (p := isDig)))
    · simp

theorem noKrun_of_digitRuns_bound {k : Nat} (hk : 0 < k) :
    ∀ (l : List Char), (∀ r ∈ digitRuns l, r.length < k) → noKrun k l
  | [] => by
    intro _ t ht
    rw [List.suffix_nil.mp ht]
    simpa using hk
  | c :: cs => by
    intro hb
    by_cases h : isDig c
    · rw [digitRuns, if_pos h] at hb
      have hrun : ((c :: cs).takeWhile isDig).length < k := hb _ (by simp)
      have hrest : noKrun k ((c :: cs).dropWhile isDig) :=
        noKrun_of_digitRuns_bound hk _ (fun r hr => hb r (by simp [hr]))
      intro t ht
      rw [List.suffix_iff_eq_drop] at ht
      set run := (c :: cs).takeWhile isDig with hrundef
      set rest := (c :: cs).dropWhile isDig with hrestdef
      have hsplit : c :: cs = run ++ rest := (List.takeWhile_append_dropWhile isDig _).symm
      set i := (c :: cs).length - t.length with hidef
      rw [ht, hsplit, List.drop_append_eq_append_drop]
      by_cases hi : i < run.length
      · have hid : ∀ x ∈ run.drop i, isDig x := by
          intro x hx
          exact List.mem_takeWhile_imp (List.mem_of_mem_drop hx)
        have hdrop0 : rest.drop (i - run.length) = rest := by
          have : i - run.length = 0 := by omega
          simp [this]
        rw [hdrop0, List.takeWhile_append]
        rw [if_pos (by rw [List.takeWhile_eq_self_iff.mpr hid])]
        rw [takeWhile_dropWhile_nil]
        have : (run.drop i).length ≤ run.length := by
          rw [List.length_drop]; omega
        simpa using lt_of_le_of_lt (by simp [this]) hrun
      · have hdropnil : run.drop i = [] := by
          apply List.drop_eq_nil_of_le; omega
        rw [hdropnil, List.nil_append]
        exact hrest _ (List.drop_suffix _ _)
    · rw [digitRuns, if_neg h] at hb
      have hrest : noKrun k cs := noKrun_of_digitRuns_bound hk cs hb
      intro t ht
      rcases List.suffix_cons_iff.mp ht with rfl | hts
      · simpa [List.takeWhile_cons, h] using hk
      · exact hrest t hts
  termination_by l => l.length
  decreasing_by
    · have h1 : (c :: cs).dropWhile isDig = cs.dropWhile isDig := by
        simp [List.dropWhile_cons, h]
      rw [h1, List.length_cons]
      exact Nat.lt_succ_of_le (List.Sublist.length_le (List.dropWhile_sublist (p := isDig)))
    · simp

theorem extract_id_of_noKrun5 {filename : List Char}
    (h : noKrun 5 (stripChar '_' (collapseSeps (stripKeywords filename)))) :
    extract_id_from_filename filename =
      (digitRuns (stripChar '_' (collapseSeps (stripKeywords filename)))).head? := by
  have h8 : noKrun 8 (stripChar '_' (collapseSeps (stripKeywords filename))) :=
    noKrun_mono (by omega) h
  have h10 : noKrun 10 (stripChar '_' (collapseSeps (stripKeywords filename))) :=
    noKrun_mono (by omega) h
  have h14 : noKrun 14 (stripChar '_' (collapseSeps (stripKeywords filename))) :=
    noKrun_mono (by omega) h
  unfold extract_id_from_filename
  dsimp only
  rw [scanFirst_eq_none (fun t ht => matchDigitsExact_eq_none h14 ht),
    scanFirst_eq_none (fun t ht => matchTagged_eq_none h14 ht),
    scanFirst_eq_none (fun t ht => matchTagged_eq_none h14 ht),
    scanFirst_eq_none (fun t ht => matchDigitsMarker_eq_none h14 ht),
    scanFirst_eq_none (fun t ht => matchMarkerDigits_eq_none h14 ht),
    scanFirst_eq_none (fun t ht => matchRunAtLeast_eq_none h10 ht),
    scanFirst_eq_none (fun t ht => matchRunAtLeast_eq_none h8 ht),
    scanFirst_eq_none (fun t ht => matchRunAtLeast_eq_none h ht),
    scanFirst_run_one]
  simp [Option.orElse]

/-! ### Claim C8 -/

/-- Claim C8 counterexample.  The stem `a12x345` is unchanged by keyword
stripping and separator collapsing; its digit runs are `12` and `345`, all
shorter than 5, so the claim's hypothesis holds and the claim asserts that
identifier extraction returns the longest run `345`.  The code returns the
first match of the fallback pattern, which is the leftmost run `12`. -/
theorem c8_counterexample :
    digitRuns (stripChar '_' (collapseSeps (stripKeywords "a12x345".data))) =
      ["12".data, "345".data] ∧
    "345".data.length = 3 ∧ "12".data.length = 2 ∧
    extract_id_from_filename "a12x345".data = some "12".data ∧
    extract_id_from_filename "a12x345".data ≠ some "345".data := by
  have hstem : stripChar '_' (collapseSeps (stripKeywords "a12x345".data)) =
      "a12x345".data := by decide
  rw [hstem]
  have hruns : digitRuns "a12x345".data = ["12".data, "345".data] := by
    simp +decide [digitRuns]
  rw [hruns]
  refine ⟨rfl, by decide, by decide, by decide, by decide⟩

/-- Claim C8, amended: for every filename whose stripped stem contains at
least one digit run but no digit run of length 5 or more, identifier
extraction returns the first (leftmost) maximal digit run of the stripped
stem — not the longest one. -/
theorem c8_amended (filename : List Char)
    (h1 : digitRuns (stripChar '_' (collapseSeps (stripKeywords filename))) ≠ [])
    (h2 : ∀ r ∈ digitRuns (stripChar '_' (collapseSeps (stripKeywords filename))),
      r.length < 5) :
    extract_id_from_filename filename =
      (digitRuns (stripChar '_' (collapseSeps (stripKeywords filename)))).head? ∧
    (digitRuns (stripChar '_' (collapseSeps (stripKeywords filename)))).head?.isSome := by
  constructor
  · exact extract_id_of_noKrun5 (noKrun_of_digitRuns_bound (by omega) _ h2)
  · cases hr : digitRuns (stripChar '_' (collapseSeps (stripKeywords filename))) with
    | nil => exact absurd hr h1
    | cons r rs => simp

/-- Witness for `c8_amended` at the stem `a12x345`. -/
theorem c8_amended_witness :
    extract_id_from_filename "a12x345".data =
      (digitRuns (stripChar '_' (collapseSeps (stripKeywords "a12x345".data)))).head? ∧
    (digitRuns (stripChar '_' (collapseSeps (stripKeywords "a12x345".data)))).head?.isSome :=
  c8_amended "a12x345".data
    (by
      have hstem : stripChar '_' (collapseSeps (stripKeywords "a12x345".data)) =
          "a12x345".data := by decide
      rw [hstem]
      simp +decide [digitRuns])
    (by
      have hstem : stripChar '_' (collapseSeps (stripKeywords "a12x345".data)) =
          "a12x345".data := by decide
      rw [hstem]
      intro r hr
      have hruns : digitRuns "a12x345".data = ["12".data, "345".data] := by
        simp +decide [digitRuns]
      rw [hruns] at hr
      simp only [List.mem_cons, List.not_mem_nil, or_false] at hr
      rcases hr with h | h
      all_goals subst h
      all_goals decide)

/-! ### Supporting lemmas for the aggregator -/

theorem strLe_total : ∀ a b : List Char, strLe a b || strLe b a
  | [], _ => by simp [strLe]
  | _ :: _, [] => by simp [strLe]
  | a :: as, b :: bs => by
    by_cases h1 : a < b
    · simp [strLe, h1]
    · by_cases h2 : b < a
      · simp [strLe, h1, h2]
      · simpa [strLe, h1, h2] using strLe_total as bs

theorem strLe_trans : ∀ a b c : List Char,
    strLe a b = true → strLe b c = true → strLe a c = true
  | [], _, _ => by simp [strLe]
  | _ :: _, [], _ => by simp [strLe]
  | _ :: _, _ :: _, [] => by simp [strLe]
  | a :: as, b :: bs, c :: cs => by
    by_cases hab : a < b
    · by_cases hbc : b < c
      · have hac : a < c := lt_trans hab hbc
        simp [strLe, hac]
      · by_cases hcb : c < b
        · intro _ h
          simp [strLe, hbc, hcb] at h
        · have hbc' : b = c := le_antisymm (not_lt.mp hcb) (not_lt.mp hbc)
          subst hbc'
          simp [strLe, hab]
    · by_cases hba : b < a
      · intro h
        simp [strLe, hab, hba] at h
      · have hab' : a = b := le_antisymm (not_lt.mp hba) (not_lt.mp hab)
        subst hab'
        by_cases hbc : a < c
        · simp [strLe, hbc]
        · by_cases hcb : c < a
          · intro _ h
            simp [strLe, hbc, hcb] at h
          · simp only [strLe, if_neg hab, if_neg hbc, if_neg hcb]
            exact strLe_trans as bs cs

theorem pywordsAux_ne_nil {s acc : List Char} (h : pywordsAux s acc ≠ []) :
    (∃ c ∈ s, isWS c = false) ∨ acc ≠ [] := by
  induction s generalizing acc with
  | nil =>
    right
    intro hacc
    subst hacc
    simp [pywordsAux] at h
  | cons c cs ih =>
    by_cases hws : isWS c
    · by_cases hacc : acc.isEmpty
      · rw [pywordsAux, if_pos hws, if_pos hacc] at h
        rcases ih h with h' | h'
        · exact Or.inl ⟨h'.choose, List.mem_cons_of_mem c h'.choose_spec.1, h'.choose_spec.2⟩
        · simp at h'
      · right
        simpa using hacc
    · exact Or.inl ⟨c, List.mem_cons_self c cs, by simpa using hws⟩

theorem exists_nonWS_of_pywords_ne_nil {s : List Char} (h : pywords s ≠ []) :
    ∃ c ∈ s, isWS c = false := by
  rcases pywordsAux_ne_nil h with h' | h'
  · exact h'
  · simp at h'

theorem calc_extraction_confidence_ok {s : List Char} (h : pywords s ≠ []) :
    ∃ q, calc_extraction_confidence s = .ok q := by
  obtain ⟨c, hc, hcws⟩ := exists_nonWS_of_pywords_ne_nil h
  have hcsp : c ≠ ' ' := by
    intro hsp
    subst hsp
    simp [isWS] at hcws
  have hfil : (s.filter (· ≠ ' ')).length ≠ 0 := by
    intro hz
    rw [List.length_eq_zero] at hz
    have hmem : c ∈ s.filter (· ≠ ' ') := List.mem_filter.mpr ⟨hc, by simpa using hcsp⟩
    rw [hz] at hmem
    simp at hmem
  have hse : ¬ s.isEmpty := by
    cases s with
    | nil => simp at hc
    | cons a as => simp
  unfold calc_extraction_confidence
  dsimp only
  rw [if_neg (by simpa using hse), if_neg hfil]
  exact ⟨_, rfl⟩

theorem lookupRec_append (st l : CardData) (k : List Char) :
    lookupRec (st ++ l) k = (lookupRec st k).or (lookupRec l k) := by
  unfold lookupRec
  rw [List.find?_append]
  cases List.find? (fun kv => kv.1 == k) st <;> simp

theorem lookupRec_single_self (k : List Char) (r : CardRec) :
    lookupRec [(k, r)] k = some r := by
  simp [lookupRec, List.find?]

theorem lookupRec_cons (p : List Char × CardRec) (rest : CardData) (k : List Char) :
    lookupRec (p :: rest) k = if p.1 = k then some p.2 else lookupRec rest k := by
  by_cases h : p.1 = k
  · simp [lookupRec, List.find?_cons_of_pos, h]
  · rw [if_neg h]
    unfold lookupRec
    rw [List.find?_cons_of_neg]
    simpa using h

theorem lookupRec_single_other {k k' : List Char} (h : k' ≠ k) (r : CardRec) :
    lookupRec [(k, r)] k' = none := by
  rw [lookupRec_cons, if_neg (fun he => h he.symm)]
  rfl

theorem updateRec_cons (p : List Char × CardRec) (rest : CardData) (k : List Char)
    (g : CardRec → CardRec) :
    updateRec (p :: rest) k g =
      (if p.1 = k then (p.1, g p.2) else p) :: updateRec rest k g := by
  by_cases h : p.1 = k
  · simp [updateRec, h]
  · simp [updateRec, h]

theorem lookupRec_updateRec (st : CardData) (k k' : List Char) (g : CardRec → CardRec) :
    lookupRec (updateRec st k g) k' =
      if k' = k then (lookupRec st k').map g else lookupRec st k' := by
  induction st with
  | nil =>
    simp only [updateRec, List.map_nil]
    by_cases h : k' = k <;> simp [h, lookupRec, List.find?]
  | cons p rest ih =>
    rw [updateRec_cons, lookupRec_cons]
    by_cases hpk : p.1 = k
    · rw [if_pos hpk]
      by_cases hk' : k' = k
      · subst hk'
        rw [lookupRec_cons, if_pos hpk, if_pos rfl, if_pos hpk]
        simp
      · have hp' : p.1 ≠ k' := fun he => hk' (he ▸ hpk :)
        rw [lookupRec_cons, if_neg (by simpa using hp'), if_neg hp', if_neg hk', ih,
          if_neg hk']
    · rw [if_neg hpk]
      by_cases hpk' : p.1 = k'
      · rw [lookupRec_cons, if_pos hpk', if_pos hpk']
        rw [if_neg (fun he => hpk (by rw [hpk', he]))]
      · rw [lookupRec_cons, if_neg hpk', if_neg hpk', ih]

theorem maybeUpgrade_front (n : Option (List Char)) (c : Rat) (r : CardRec) :
    (maybeUpgrade n c r).front = r.front := by
  unfold maybeUpgrade
  split <;> rfl

theorem maybeUpgrade_back (n : Option (List Char)) (c : Rat) (r : CardRec) :
    (maybeUpgrade n c r).back = r.back := by
  unfold maybeUpgrade
  split <;> rfl

theorem maybeUpgrade_conf_ge (n : Option (List Char)) (c : Rat) (r : CardRec) :
    r.confidence ≤ (maybeUpgrade n c r).confidence := by
  unfold maybeUpgrade
  split
  · next h => exact le_of_lt h.2
  · exact le_refl _

theorem maybeUpgrade_of_le {n : Option (List Char)} {c : Rat} {r : CardRec}
    (h : c ≤ r.confidence) : maybeUpgrade n c r = r := by
  unfold maybeUpgrade
  rw [if_neg]
  rintro ⟨-, hlt⟩
  exact absurd h (not_le.mpr hlt)

theorem assignSlot_front_stable {f : PyFile} {s : Side} {n : Option (List Char)} {c : Rat}
    {r : CardRec} {p : PyFile} (h : r.front = some p) :
    (assignSlot f s n c r).front = some p := by
  unfold assignSlot
  split
  · next hc => rw [hc.2] at h; cases h
  · split
    · rw [maybeUpgrade_front]; exact h
    · split
      · next hc => rw [hc] at h; cases h
      · split
        · rw [maybeUpgrade_front]; exact h
        · exact h

theorem assignSlot_back_stable {f : PyFile} {s : Side} {n : Option (List Char)} {c : Rat}
    {r : CardRec} {p : PyFile} (h : r.back = some p) :
    (assignSlot f s n c r).back = some p := by
  unfold assignSlot
  split
  · rw [maybeUpgrade_back]; exact h
  · split
    · next hc => rw [hc.2] at h; cases h
    · split
      · rw [maybeUpgrade_back]; exact h
      · split
        · next hc => rw [hc] at h; cases h
        · exact h

theorem assignSlot_conf_ge (f : PyFile) (s : Side) (n : Option (List Char)) (c : Rat)
    (r : CardRec) : r.confidence ≤ (assignSlot f s n c r).confidence := by
  unfold assignSlot
  split
  · exact maybeUpgrade_conf_ge n c _
  · split
    · exact maybeUpgrade_conf_ge n c _
    · split
      · exact maybeUpgrade_conf_ge n c _
      · split
        · exact maybeUpgrade_conf_ge n c _
        · exact le_refl _

theorem assignSlot_classified_front {f : PyFile} {n : Option (List Char)} {c : Rat}
    {r : CardRec} (h : r.front = none) :
    (assignSlot f .front n c r).front = some f := by
  unfold assignSlot
  rw [if_pos ⟨rfl, h⟩, maybeUpgrade_front]

theorem assignSlot_classified_back {f : PyFile} {n : Option (List Char)} {c : Rat}
    {r : CardRec} (h : r.back = none) :
    (assignSlot f .back n c r).back = some f := by
  unfold assignSlot
  rw [if_neg (by rintro ⟨h1, -⟩; cases h1), if_pos ⟨rfl, h⟩, maybeUpgrade_back]

theorem assignSlot_overflow_front {f q : PyFile} {n : Option (List Char)} {c : Rat}
    {r : CardRec} (hb : r.back = some q) (h : r.front = none) :
    (assignSlot f .back n c r).front = some f := by
  unfold assignSlot
  rw [if_neg (by rintro ⟨h1, -⟩; cases h1), if_neg (by rintro ⟨-, h2⟩; rw [h2] at hb; cases hb),
    if_pos h, maybeUpgrade_front]

theorem assignSlot_overflow_back {f q : PyFile} {n : Option (List Char)} {c : Rat}
    {r : CardRec} (hf : r.front = some q) (h : r.back = none) :
    (assignSlot f .front n c r).back = some f := by
  unfold assignSlot
  rw [if_neg (by rintro ⟨-, h2⟩; rw [h2] at hf; cases hf),
    if_neg (by rintro ⟨h1, -⟩; cases h1),
    if_neg (by rw [hf]; simp), if_pos h, maybeUpgrade_back]

theorem assignSlot_full {f p q : PyFile} {s : Side} {n : Option (List Char)} {c : Rat}
    {r : CardRec} (hf : r.front = some p) (hb : r.back = some q) :
    assignSlot f s n c r = r := by
  unfold assignSlot
  rw [if_neg (by rintro ⟨-, h2⟩; rw [h2] at hf; cases hf),
    if_neg (by rintro ⟨-, h2⟩; rw [h2] at hb; cases hb),
    if_neg (by rw [hf]; simp), if_neg (by rw [hb]; simp)]

/-- Case analysis of one stage-2 step as seen from one key `k`: either the
step leaves `k`'s entry untouched, or it creates the fresh record and stops
(the confidence call raised), or the entry (the fresh record for a new key)
goes through the assignment ladder. -/
theorem stepImage_cases {Img : Type} (env : Env Img) (st : CardData) (f : PyFile)
    (k : List Char) :
    lookupRec (stepImage env st f) k = lookupRec st k ∨
    (lookupRec st k = none ∧ lookupRec (stepImage env st f) k = some emptyRec) ∨
    (∃ sd nm cf r₀,
      (lookupRec st k = some r₀ ∨ (lookupRec st k = none ∧ r₀ = emptyRec)) ∧
      lookupRec (stepImage env st f) k = some (assignSlot f sd nm cf r₀)) := by
  unfold stepImage
  split
  · exact Or.inl rfl
  · dsimp only
    split
    · exact Or.inl rfl
    · set cid := extract_card_id env.useOcr (env.enhance f).isSome
        ((env.enhance f).bind env.ocrIdFromImage) f.stem with hcid
      set nm := if env.useOcr = true then env.extractName f (env.enhance f) else none
        with hnm
      by_cases hmem : (lookupRec st cid).isSome
      · rw [if_pos hmem]
        split
        · exact Or.inl rfl
        · rw [lookupRec_updateRec]
          by_cases hk : k = cid
          · subst hk
            rw [if_pos rfl]
            obtain ⟨r₀, hr₀⟩ := Option.isSome_iff_exists.mp hmem
            rw [hr₀]
            exact Or.inr (Or.inr ⟨_, _, _, r₀, Or.inl rfl, rfl⟩)
          · rw [if_neg hk]
            exact Or.inl rfl
      · rw [if_neg hmem]
        have hnone : lookupRec st cid = none := by
          cases h : lookupRec st cid
          · rfl
          · rw [h] at hmem; simp at hmem
        split
        · by_cases hk : k = cid
          · subst hk
            rw [lookupRec_append, hnone, lookupRec_single_self]
            exact Or.inr (Or.inl ⟨rfl, rfl⟩)
          · rw [lookupRec_append, lookupRec_single_other hk]
            cases h : lookupRec st k <;> simp [h]
        · rw [lookupRec_updateRec]
          by_cases hk : k = cid
          · subst hk
            rw [if_pos rfl, lookupRec_append, hnone, lookupRec_single_self]
            exact Or.inr (Or.inr ⟨_, _, _, emptyRec, Or.inr ⟨rfl, rfl⟩, rfl⟩)
          · rw [if_neg hk, lookupRec_append, lookupRec_single_other hk]
            cases h : lookupRec st k <;> simp [h]

theorem stepImage_conf_mono {Img : Type} (env : Env Img) (st : CardData) (f : PyFile)
    (k : List Char) : confOf st k ≤ confOf (stepImage env st f) k := by
  rcases stepImage_cases env st f k with h | ⟨h1, h2⟩ | ⟨sd, nm, cf, r₀, h1, h2⟩
  · unfold confOf
    rw [h]
  · unfold confOf
    rw [h1, h2]
    norm_num [emptyRec]
  · rcases h1 with h1 | ⟨h1, rfl⟩
    · unfold confOf
      rw [h1, h2]
      exact assignSlot_conf_ge f sd nm cf r₀
    · unfold confOf
      rw [h1, h2]
      calc (0 : Rat) = emptyRec.confidence := rfl
        _ ≤ _ := assignSlot_conf_ge f sd nm cf emptyRec

theorem foldl_step_conf_mono {Img : Type} (env : Env Img) (files : List PyFile)
    (st : CardData) (k : List Char) :
    confOf st k ≤ confOf (files.foldl (stepImage env) st) k := by
  induction files generalizing st with
  | nil => exact le_refl _
  | cons f fs ih =>
    rw [List.foldl_cons]
    exact le_trans (stepImage_conf_mono env st f k) (ih _)

theorem stepImage_front_stable {Img : Type} (env : Env Img) {st : CardData} (f : PyFile)
    {k : List Char} {r : CardRec} {p : PyFile} (h : lookupRec st k = some r)
    (hp : r.front = some p) :
    ∃ r', lookupRec (stepImage env st f) k = some r' ∧ r'.front = some p := by
  rcases stepImage_cases env st f k with h' | ⟨h1, -⟩ | ⟨sd, nm, cf, r₀, h1, h2⟩
  · exact ⟨r, h' ▸ h, hp⟩
  · rw [h1] at h; cases h
  · rcases h1 with h1 | ⟨h1, rfl⟩
    · rw [h1] at h
      injection h with h
      subst h
      exact ⟨_, h2, assignSlot_front_stable hp⟩
    · rw [h1] at h; cases h

theorem stepImage_back_stable {Img : Type} (env : Env Img) {st : CardData} (f : PyFile)
    {k : List Char} {r : CardRec} {p : PyFile} (h : lookupRec st k = some r)
    (hp : r.back = some p) :
    ∃ r', lookupRec (stepImage env st f) k = some r' ∧ r'.back = some p := by
  rcases stepImage_cases env st f k with h' | ⟨h1, -⟩ | ⟨sd, nm, cf, r₀, h1, h2⟩
  · exact ⟨r, h' ▸ h, hp⟩
  · rw [h1] at h; cases h
  · rcases h1 with h1 | ⟨h1, rfl⟩
    · rw [h1] at h
      injection h with h
      subst h
      exact ⟨_, h2, assignSlot_back_stable hp⟩
    · rw [h1] at h; cases h

theorem foldl_step_front_stable {Img : Type} (env : Env Img) (files : List PyFile)
    {st : CardData} {k : List Char} {r : CardRec} {p : PyFile}
    (h : lookupRec st k = some r) (hp : r.front = some p) :
    ∃ r', lookupRec (files.foldl (stepImage env) st) k = some r' ∧ r'.front = some p := by
  induction files generalizing st r with
  | nil => exact ⟨r, h, hp⟩
  | cons f fs ih =>
    rw [List.foldl_cons]
    obtain ⟨r', h', hp'⟩ := stepImage_front_stable env f h hp
    exact ih h' hp'

theorem foldl_step_back_stable {Img : Type} (env : Env Img) (files : List PyFile)
    {st : CardData} {k : List Char} {r : CardRec} {p : PyFile}
    (h : lookupRec st k = some r) (hp : r.back = some p) :
    ∃ r', lookupRec (files.foldl (stepImage env) st) k = some r' ∧ r'.back = some p := by
  induction files generalizing st r with
  | nil => exact ⟨r, h, hp⟩
  | cons f fs ih =>
    rw [List.foldl_cons]
    obtain ⟨r', h', hp'⟩ := stepImage_back_stable env f h hp
    exact ih h' hp'

/-- Full per-record case analysis of cross-validation: it either returns the
record unchanged or replaces name and confidence by an alternative of at
least three words with strictly higher confidence. -/
theorem crossValidateRec_cases {Img : Type} (env : Env Img) (files : List PyFile)
    (r : CardRec) :
    crossValidateRec env files r = .ok r ∨
    (∃ alt cf, crossValidateRec env files r =
        .ok { r with name := some alt, confidence := cf } ∧
      3 ≤ (pywords alt).length ∧ r.confidence < cf) := by
  unfold crossValidateRec
  split
  · next hguard =>
    split
    · next o ho =>
      split
      · split
        · next img himg =>
          split
          · next alt halt =>
            split
            · next hw =>
              split
              · next e heq =>
                exfalso
                have hne : pywords alt ≠ [] := by
                  intro hnil
                  rw [hnil] at hw
                  simp at hw
                obtain ⟨q, hq⟩ := calc_extraction_confidence_ok hne
                rw [hq] at heq
                cases heq
              · next cf heq =>
                split
                · next hlt =>
                  exact Or.inr ⟨alt, cf, rfl, hw.2, hlt⟩
                · exact Or.inl rfl
            · exact Or.inl rfl
          · exact Or.inl rfl
        · exact Or.inl rfl
      · exact Or.inl rfl
    · exact Or.inl rfl
  · exact Or.inl rfl

theorem crossValidateRec_ok {Img : Type} (env : Env Img) (files : List PyFile)
    (r : CardRec) : ∃ r', crossValidateRec env files r = .ok r' := by
  rcases crossValidateRec_cases env files r with h | ⟨alt, cf, h, -, -⟩
  · exact ⟨r, h⟩
  · exact ⟨_, h⟩

theorem crossValidateRec_front (Img : Type) (env : Env Img) (files : List PyFile)
    {r r' : CardRec} (h : crossValidateRec env files r = .ok r') :
    r'.front = r.front ∧ r'.back = r.back ∧ r.confidence ≤ r'.confidence := by
  rcases crossValidateRec_cases env files r with h' | ⟨alt, cf, h', -, hlt⟩
  · rw [h'] at h
    injection h with h
    subst h
    exact ⟨rfl, rfl, le_refl _⟩
  · rw [h'] at h
    injection h with h
    subst h
    exact ⟨rfl, rfl, le_of_lt hlt⟩

theorem crossValidate_ok {Img : Type} (env : Env Img) (files : List PyFile) :
    ∀ st : CardData, ∃ st', crossValidate env files st = .ok st'
  | [] => ⟨[], rfl⟩
  | (k, r) :: rest => by
    obtain ⟨r', hr⟩ := crossValidateRec_ok env files r
    obtain ⟨rest', hrest⟩ := crossValidate_ok env files rest
    refine ⟨(k, r') :: rest', ?_⟩
    rw [crossValidate, hr, hrest]
    rfl

theorem crossValidate_lookup {Img : Type} (env : Env Img) (files : List PyFile) :
    ∀ (st st' : CardData), crossValidate env files st = .ok st' →
      ∀ k, (lookupRec st k = none → lookupRec st' k = none) ∧
        (∀ r, lookupRec st k = some r →
          ∃ r', lookupRec st' k = some r' ∧ crossValidateRec env files r = .ok r')
  | [], st', h => by
    rw [crossValidate] at h
    injection h with h
    subst h
    exact fun k => ⟨fun _ => rfl, fun r hr => by cases hr⟩
  | (k₀, r₀) :: rest, st', h => by
    rw [crossValidate] at h
    rcases hr : crossValidateRec env files r₀ with e | r₀'
    · rw [hr] at h; cases h
    · rw [hr] at h
      rcases hrest : crossValidate env files rest with e | rest'
      · rw [hrest] at h; cases h
      · rw [hrest] at h
        have hst' : st' = (k₀, r₀') :: rest' := by
          have : Except.ok ((k₀, r₀') :: rest') = (Except.ok st' : Except Unit CardData) := h
          injection this with h'
          exact h'.symm
        subst hst'
        intro k
        rw [lookupRec_cons, lookupRec_cons]
        dsimp only
        by_cases hk : k₀ = k
        · rw [if_pos hk, if_pos hk]
          refine ⟨fun hc => Option.noConfusion hc, fun r hr' => ?_⟩
          injection hr' with hr'
          exact ⟨r₀', rfl, hr' ▸ hr⟩
        · rw [if_neg hk, if_neg hk]
          exact crossValidate_lookup env files rest rest' hrest k

theorem crossValidate_conf_mono {Img : Type} (env : Env Img) (files : List PyFile)
    {st st' : CardData} (h : crossValidate env files st = .ok st') (k : List Char) :
    confOf st k ≤ confOf st' k := by
  obtain ⟨hnone, hsome⟩ := crossValidate_lookup env files st st' h k
  unfold confOf
  cases hl : lookupRec st k with
  | none => rw [hnone hl]
  | some r =>
    obtain ⟨r', hr', hrec⟩ := hsome r hl
    rw [hr']
    exact (crossValidateRec_front Img env files hrec).2.2

theorem emitRecords_sorted (st : CardData) :
    (emitRecords st).Pairwise (fun a b => strLe a.1 b.1 = true) := by
  unfold emitRecords
  exact List.sorted_mergeSort (fun a b c hab hbc => strLe_trans a.1 b.1 c.1 hab hbc)
    (fun a b => strLe_total a.1 b.1) _

theorem mem_emitRecords (st : CardData) (id : List Char) (fr : PyFile)
    (bk : Option PyFile) (nm : Option (List Char)) :
    (id, fr, bk, nm) ∈ emitRecords st ↔
      ∃ r, (id, r) ∈ st ∧ r.front = some fr ∧ r.back = bk ∧ r.name = nm := by
  unfold emitRecords
  rw [List.mem_mergeSort, List.mem_filterMap]
  constructor
  · rintro ⟨⟨k, r⟩, hkv, hmap⟩
    cases hf : r.front with
    | none =>
      rw [hf] at hmap
      cases hmap
    | some f =>
      rw [hf] at hmap
      simp only [Option.map_some', Option.some.injEq, Prod.mk.injEq] at hmap
      obtain ⟨h1, h2, h3, h4⟩ := hmap
      subst h1
      subst h2
      exact ⟨r, hkv, hf, h3, h4⟩
  · rintro ⟨r, hrmem, hfr, rfl, rfl⟩
    refine ⟨(id, r), hrmem, ?_⟩
    rw [hfr]
    rfl

/-! ### Claim C3 -/

/-- Claim C3 asserts that identifier extraction returns a non-empty string
for every non-empty filename.  The file `_.jpg` has the non-empty stem `_`:
keyword stripping leaves `_`, separator collapsing and underscore stripping
leave the empty string, no digit pattern matches, and the fallback
`_clean_filename_for_id` returns the first `'_'`-separated segment of the
empty cleaned string — the empty string.  (The guard `parts[0] if parts else
filename` of source line 811 cannot help: Python `''.split('_')` is `['']`,
never `[]`.)  The same happens with OCR enabled, since no enhanced image
exists.  This contradicts the claim, whose totality statement is clearly the
intent of the code's own fallback guard. -/
theorem c3_empty_identifier_failing_input :
    "_".data ≠ [] ∧
    extract_card_id false false none "_".data = [] ∧
    extract_card_id true false none "_".data = [] := by
  decide

/-! ### Claim C4 -/

/-- Claim C4: the matching run always terminates with an `.ok` result (no
exception escapes `match_cards`), returns `[]` when the directory listing
raises, and returns `[]` when no grouped record has a front image. -/
theorem c4_match_total_and_empty_worst_case :
    (∀ (Img : Type) (env : Env Img), ∃ l, match_cards env = .ok l) ∧
    (∀ (Img : Type) (env : Env Img), env.listing = .error () → match_cards env = .ok []) ∧
    (∀ (Img : Type) (env : Env Img) (files : List PyFile) (st' : CardData),
      env.listing = .ok files →
      crossValidate env files (files.foldl (stepImage env) []) = .ok st' →
      (∀ kv ∈ st', kv.2.front = none) →
      match_cards env = .ok []) := by
  refine ⟨?_, ?_, ?_⟩
  · intro Img env
    unfold match_cards
    cases hl : env.listing with
    | error e => exact ⟨[], rfl⟩
    | ok files =>
      dsimp only
      by_cases hfe : files.isEmpty
      · rw [if_pos hfe]
        exact ⟨[], rfl⟩
      · rw [if_neg hfe]
        obtain ⟨st', hst'⟩ := crossValidate_ok env files (files.foldl (stepImage env) [])
        rw [hst']
        exact ⟨_, rfl⟩
  · intro Img env he
    unfold match_cards
    rw [he]
  · intro Img env files st' hl hcv hall
    unfold match_cards
    rw [hl]
    dsimp only
    by_cases hfe : files.isEmpty
    · rw [if_pos hfe]
    · rw [if_neg hfe, hcv]
      have hnil :
          st'.filterMap
            (fun kv => kv.2.front.map (fun fr => (kv.1, fr, kv.2.back, kv.2.name))) = [] := by
        rw [List.filterMap_eq_nil_iff]
        intro kv hkv
        rw [hall kv hkv]
        rfl
      dsimp only
      unfold emitRecords
      rw [hnil, List.mergeSort_nil]

/-- Witness for `c4_match_total_and_empty_worst_case`: a directory whose
listing raises yields the empty result. -/
theorem c4_witness : match_cards errEnv = .ok [] :=
  c4_match_total_and_empty_worst_case.2.1 Unit errEnv rfl

/-! ### Claim C5 -/

/-- Claim C5: a candidate whose confidence does not strictly exceed the
stored one never changes the stored name or confidence (grouping and
cross-validation both use a strict comparison), and the stored confidence of
every identifier is non-decreasing through the stage-2 fold and the
cross-validation pass. -/
theorem c5_confidence_monotone_upgrade :
    (∀ (n : Option (List Char)) (c : Rat) (r : CardRec),
      c ≤ r.confidence → maybeUpgrade n c r = r) ∧
    (∀ (Img : Type) (env : Env Img) (files : List PyFile) (r r' : CardRec),
      crossValidateRec env files r = .ok r' →
      r' = r ∨ r.confidence < r'.confidence) ∧
    (∀ (Img : Type) (env : Env Img) (st : CardData) (files : List PyFile) (k : List Char),
      confOf st k ≤ confOf (files.foldl (stepImage env) st) k) ∧
    (∀ (Img : Type) (env : Env Img) (files : List PyFile) (st st' : CardData),
      crossValidate env files st = .ok st' → ∀ k, confOf st k ≤ confOf st' k) := by
  refine ⟨fun n c r h => maybeUpgrade_of_le h, ?_, ?_, ?_⟩
  · intro Img env files r r' h
    rcases crossValidateRec_cases env files r with h' | ⟨alt, cf, h', -, hlt⟩
    · rw [h'] at h
      injection h with h
      exact Or.inl h.symm
    · rw [h'] at h
      injection h with h
      subst h
      exact Or.inr hlt
  · intro Img env st files k
    exact foldl_step_conf_mono env files st k
  · intro Img env files st st' h k
    exact crossValidate_conf_mono env files h k

/-- Witness for `c5_confidence_monotone_upgrade`: an equal-confidence
candidate leaves the fresh record untouched. -/
theorem c5_witness : maybeUpgrade (some "اب جد".data) 0 emptyRec = emptyRec :=
  c5_confidence_monotone_upgrade.1 (some "اب جد".data) 0 emptyRec (le_refl 0)

/-! ### Claim C6 -/

/-- Claim C6: whatever the environment (hence whatever the enumeration order
of the directory), every successful result of `match_cards` is sorted in
ascending lexicographic order of the records' identifier strings. -/
theorem c6_output_sorted_by_identifier :
    ∀ (Img : Type) (env : Env Img) (l : List CardPair),
      match_cards env = .ok l → l.Pairwise (fun a b => strLe a.1 b.1 = true) := by
  intro Img env l h
  unfold match_cards at h
  cases hl : env.listing with
  | error e =>
    rw [hl] at h
    injection h with h
    subst h
    exact List.Pairwise.nil
  | ok files =>
    rw [hl] at h
    dsimp only at h
    by_cases hfe : files.isEmpty
    · rw [if_pos hfe] at h
      injection h with h
      subst h
      exact List.Pairwise.nil
    · rw [if_neg hfe] at h
      rcases hcv : crossValidate env files (files.foldl (stepImage env) []) with e | st'
      · rw [hcv] at h
        cases h
      · rw [hcv] at h
        injection h with h
        subst h
        exact emitRecords_sorted st'

/-- Witness for `c6_output_sorted_by_identifier` at the single-orphan-front
run. -/
theorem c6_witness :
    List.Pairwise (fun a b : CardPair => strLe a.1 b.1 = true)
      [("00011112222333".data, orphanFile, none, none)] :=
  c6_output_sorted_by_identifier Unit orphanEnv
    [("00011112222333".data, orphanFile, none, none)]
    (by
      norm_num +decide [match_cards, stepImage, orphanEnv, orphanFile,
        extract_card_id, extract_card_id_rest, extract_id_from_filename, determine_side,
        lookupRec, updateRec, emptyRec, calc_extraction_confidence, pyTruthy, assignSlot,
        maybeUpgrade, pywords, pywordsAux, countArabic, isWS, isArabicChar, isSubstring,
        backKeywords, frontKeywords, pyLower, stripKeywords, stripKeywordsAux, kwMatch,
        kwList, ciPrefix, collapseSeps, collapseSepsAux, isSep, stripChar, scanFirst,
        matchDigitsExact, matchRunAtLeast, matchTagged, matchDigitsMarker,
        matchMarkerDigits, sideMarkers, isDig, clean_filename_for_id, crossValidate,
        crossValidateRec, cross_other, emitRecords, List.mergeSort, strLe, Char.toLower,
        Bind.bind, Except.bind, Option.map, List.filterMap])

/-! ### Claim C9 -/

/-- Claim C9: the assignment ladder occupies the classified side's slot when
free, otherwise whichever slot is free, otherwise drops the image leaving
the record unchanged; occupied slots are never reassigned or cleared, either
by later images (through the stage-2 fold) or by cross-validation, which
only touches name and confidence. -/
theorem c9_slot_assignment_immutability :
    (∀ (f : PyFile) (s : Side) (n : Option (List Char)) (c : Rat) (r : CardRec)
      (p : PyFile), r.front = some p → (assignSlot f s n c r).front = some p) ∧
    (∀ (f : PyFile) (s : Side) (n : Option (List Char)) (c : Rat) (r : CardRec)
      (p : PyFile), r.back = some p → (assignSlot f s n c r).back = some p) ∧
    (∀ (f : PyFile) (n : Option (List Char)) (c : Rat) (r : CardRec),
      r.front = none → (assignSlot f .front n c r).front = some f) ∧
    (∀ (f : PyFile) (n : Option (List Char)) (c : Rat) (r : CardRec),
      r.back = none → (assignSlot f .back n c r).back = some f) ∧
    (∀ (f : PyFile) (n : Option (List Char)) (c : Rat) (r : CardRec) (q : PyFile),
      r.back = some q → r.front = none → (assignSlot f .back n c r).front = some f) ∧
    (∀ (f : PyFile) (n : Option (List Char)) (c : Rat) (r : CardRec) (q : PyFile),
      r.front = some q → r.back = none → (assignSlot f .front n c r).back = some f) ∧
    (∀ (f : PyFile) (s : Side) (n : Option (List Char)) (c : Rat) (r : CardRec)
      (p q : PyFile), r.front = some p → r.back = some q → assignSlot f s n c r = r) ∧
    (∀ (Img : Type) (env : Env Img) (files : List PyFile) (r r' : CardRec),
      crossValidateRec env files r = .ok r' → r'.front = r.front ∧ r'.back = r.back) ∧
    (∀ (Img : Type) (env : Env Img) (files : List PyFile) (st : CardData)
      (k : List Char) (r : CardRec) (p : PyFile),
      lookupRec st k = some r → r.front = some p →
      ∃ r', lookupRec (files.foldl (stepImage env) st) k = some r' ∧ r'.front = some p) ∧
    (∀ (Img : Type) (env : Env Img) (files : List PyFile) (st : CardData)
      (k : List Char) (r : CardRec) (p : PyFile),
      lookupRec st k = some r → r.back = some p →
      ∃ r', lookupRec (files.foldl (stepImage env) st) k = some r' ∧ r'.back = some p) ∧
    (∀ (Img : Type) (env : Env Img) (files : List PyFile) (st st' : CardData)
      (k : List Char) (r : CardRec) (p : PyFile),
      crossValidate env files st = .ok st' → lookupRec st k = some r →
      r.front = some p →
      ∃ r', lookupRec st' k = some r' ∧ r'.front = some p ∧ r'.back = r.back) := by
  refine ⟨fun f s n c r p h => assignSlot_front_stable h,
    fun f s n c r p h => assignSlot_back_stable h,
    fun f n c r h => assignSlot_classified_front h,
    fun f n c r h => assignSlot_classified_back h,
    fun f n c r q hb h => assignSlot_overflow_front hb h,
    fun f n c r q hf h => assignSlot_overflow_back hf h,
    fun f s n c r p q hf hb => assignSlot_full hf hb,
    fun Img env files r r' h => ⟨(crossValidateRec_front Img env files h).1,
      (crossValidateRec_front Img env files h).2.1⟩,
    fun Img env files st k r p h hp => foldl_step_front_stable env files h hp,
    fun Img env files st k r p h hp => foldl_step_back_stable env files h hp,
    ?_⟩
  intro Img env files st st' k r p hcv hl hp
  obtain ⟨-, hsome⟩ := crossValidate_lookup env files st st' hcv k
  obtain ⟨r', hr', hrec⟩ := hsome r hl
  obtain ⟨hfr, hbk, -⟩ := crossValidateRec_front Img env files hrec
  exact ⟨r', hr', hfr ▸ hp, hbk⟩

/-- Witness for `c9_slot_assignment_immutability`: a front image occupies
the free front slot of a fresh record. -/
theorem c9_witness : (assignSlot orphanFile .front none 0 emptyRec).front = some orphanFile :=
  c9_slot_assignment_immutability.2.2.1 orphanFile none 0 emptyRec rfl

/-! ### Claim C7 -/

/-- Claim C7: a successful run emits exactly the records whose front slot is
occupied, as `(identifier, front, back-or-none, name-or-none)` tuples — so a
record holding only a back image is never emitted — and in particular a
single orphan front image yields one record with `back = none`. -/
theorem c7_emits_exactly_front_records :
    (∀ (Img : Type) (env : Env Img) (files : List PyFile) (st' : CardData),
      env.listing = .ok files → ¬files.isEmpty →
      crossValidate env files (files.foldl (stepImage env) []) = .ok st' →
      match_cards env = .ok (emitRecords st') ∧
      ∀ (id : List Char) (fr : PyFile) (bk : Option PyFile) (nm : Option (List Char)),
        (id, fr, bk, nm) ∈ emitRecords st' ↔
          ∃ r, (id, r) ∈ st' ∧ r.front = some fr ∧ r.back = bk ∧ r.name = nm) ∧
    match_cards orphanEnv = .ok [("00011112222333".data, orphanFile, none, none)] := by
  constructor
  · intro Img env files st' hl hfe hcv
    constructor
    · unfold match_cards
      rw [hl]
      dsimp only
      rw [if_neg hfe, hcv]
    · intro id fr bk nm
      exact mem_emitRecords st' id fr bk nm
  · norm_num +decide [match_cards, stepImage, orphanEnv, orphanFile,
      extract_card_id, extract_card_id_rest, extract_id_from_filename, determine_side,
      lookupRec, updateRec, emptyRec, calc_extraction_confidence, pyTruthy, assignSlot,
      maybeUpgrade, pywords, pywordsAux, countArabic, isWS, isArabicChar, isSubstring,
      backKeywords, frontKeywords, pyLower, stripKeywords, stripKeywordsAux, kwMatch,
      kwList, ciPrefix, collapseSeps, collapseSepsAux, isSep, stripChar, scanFirst,
      matchDigitsExact, matchRunAtLeast, matchTagged, matchDigitsMarker,
      matchMarkerDigits, sideMarkers, isDig, clean_filename_for_id, crossValidate,
      crossValidateRec, cross_other, emitRecords, List.mergeSort, strLe, Char.toLower,
      Bind.bind, Except.bind, Option.map, List.filterMap]

/-- Witness for `c7_emits_exactly_front_records` at the orphan-front run:
the final state holds one record with an occupied front slot and the run
emits exactly its tuple. -/
theorem c7_witness :
    match_cards orphanEnv =
      .ok (emitRecords
        [("00011112222333".data, ⟨some orphanFile, none, none, 0⟩)]) ∧
    ∀ (id : List Char) (fr : PyFile) (bk : Option PyFile) (nm : Option (List Char)),
      (id, fr, bk, nm) ∈ emitRecords
          [("00011112222333".data, ⟨some orphanFile, none, none, 0⟩)] ↔
        ∃ r, (id, r) ∈
            [(("00011112222333".data : List Char),
              (⟨some orphanFile, none, none, 0⟩ : CardRec))] ∧
          r.front = some fr ∧ r.back = bk ∧ r.name = nm :=
  c7_emits_exactly_front_records.1 Unit orphanEnv [orphanFile]
    [("00011112222333".data, ⟨some orphanFile, none, none, 0⟩)]
    rfl
    (by decide)
    (by
      norm_num +decide [stepImage, orphanEnv, orphanFile,
        extract_card_id, extract_card_id_rest, extract_id_from_filename, determine_side,
        lookupRec, updateRec, emptyRec, calc_extraction_confidence, pyTruthy, assignSlot,
        maybeUpgrade, pywords, pywordsAux, countArabic, isWS, isArabicChar, isSubstring,
        backKeywords, frontKeywords, pyLower, stripKeywords, stripKeywordsAux, kwMatch,
        kwList, ciPrefix, collapseSeps, collapseSepsAux, isSep, stripChar, scanFirst,
        matchDigitsExact, matchRunAtLeast, matchTagged, matchDigitsMarker,
        matchMarkerDigits, sideMarkers, isDig, clean_filename_for_id, crossValidate,
        crossValidateRec, cross_other, Char.toLower, Bind.bind, Except.bind, Option.map])

/-! ### Claim C10 -/

theorem dedupCandidates_step_ne_nil (m : List (List Char × List Char × Rat))
    (cs : List Char × Rat) (hm : m ≠ []) :
    (match m.find? (fun e => e.1 == normalize_name_for_comparison cs.1) with
      | none => m ++ [(normalize_name_for_comparison cs.1, cs)]
      | some e =>
        if e.2.2 < cs.2 then
          m.map (fun e' =>
            if e'.1 == normalize_name_for_comparison cs.1 then (e'.1, cs) else e')
        else m) ≠ [] := by
  cases m.find? (fun e => e.1 == normalize_name_for_comparison cs.1) with
  | none => simp
  | some e =>
    dsimp only
    split
    · simpa using hm
    · exact hm

theorem dedupCandidates_values_sub (pairs : List (List Char × Rat)) :
    ∀ (m : List (List Char × List Char × Rat)),
      ∀ e ∈ pairs.foldl (fun m cs =>
        let key := normalize_name_for_comparison cs.1
        match m.find? (fun e => e.1 == key) with
        | none => m ++ [(key, cs)]
        | some e =>
          if e.2.2 < cs.2 then
            m.map (fun e' => if e'.1 == key then (e'.1, cs) else e')
          else m) m,
      (∃ e₀ ∈ m, e.2 = e₀.2) ∨ e.2 ∈ pairs := by
  induction pairs with
  | nil =>
    intro m e he
    exact Or.inl ⟨e, he, rfl⟩
  | cons p ps ih =>
    intro m e he
    rw [List.foldl_cons] at he
    rcases ih _ e he with ⟨e₀, he₀, heq⟩ | hmem
    · dsimp only at he₀
      rcases hfind : m.find? (fun e => e.1 == normalize_name_for_comparison p.1) with
        _ | e₁
      · rw [hfind] at he₀
        dsimp only at he₀
        rcases List.mem_append.mp he₀ with h | h
        · exact Or.inl ⟨e₀, h, heq⟩
        · simp only [List.mem_singleton] at h
          subst h
          exact Or.inr (by simp [heq])
      · rw [hfind] at he₀
        dsimp only at he₀
        by_cases hlt : e₁.2.2 < p.2
        · rw [if_pos hlt] at he₀
          obtain ⟨e', he', heq'⟩ := List.mem_map.mp he₀
          by_cases hk : e'.1 == normalize_name_for_comparison p.1
          · rw [if_pos hk] at heq'
            subst heq'
            exact Or.inr (by simp [heq])
          · rw [if_neg hk] at heq'
            subst heq'
            exact Or.inl ⟨e', he', heq⟩
        · rw [if_neg hlt] at he₀
          exact Or.inl ⟨e₀, he₀, heq⟩
    · exact Or.inr (List.mem_cons_of_mem p hmem)

theorem dedupCandidates_foldl_ne_nil :
    ∀ (ps : List (List Char × Rat)) (m : List (List Char × List Char × Rat)), m ≠ [] →
      ps.foldl (fun m cs =>
        let key := normalize_name_for_comparison cs.1
        match m.find? (fun e => e.1 == key) with
        | none => m ++ [(key, cs)]
        | some e =>
          if e.2.2 < cs.2 then
            m.map (fun e' => if e'.1 == key then (e'.1, cs) else e')
          else m) m ≠ []
  | [], _, hm => hm
  | q :: qs, m, hm => by
    rw [List.foldl_cons]
    refine dedupCandidates_foldl_ne_nil qs _ ?_
    dsimp only
    exact dedupCandidates_step_ne_nil m q hm

theorem dedupCandidates_ne_nil {pairs : List (List Char × Rat)} (h : pairs ≠ []) :
    dedupCandidates pairs ≠ [] := by
  unfold dedupCandidates
  cases pairs with
  | nil => exact absurd rfl h
  | cons p ps =>
    rw [List.foldl_cons]
    refine dedupCandidates_foldl_ne_nil ps _ ?_
    dsimp only
    simp [List.find?]

/-- Claim C10: the best-name selector returns `none` exactly on an empty
candidate pool; with a parallel score list and a non-empty pool the returned
name is one of the input candidates, in its original casing. -/
theorem c10_selector_returns_input_candidate :
    (∀ scores : List Rat, ai_select_best_name [] scores = none) ∧
    (∀ (cands : List (List Char)) (scores : List Rat),
      cands ≠ [] → scores.length = cands.length →
      ∃ n, ai_select_best_name cands scores = some n ∧ n ∈ cands) := by
  constructor
  · intro scores
    rfl
  · intro cands scores hne hlen
    have hzip : cands.zip scores ≠ [] := by
      intro hz
      have := congrArg List.length hz
      rw [List.length_zip, hlen, min_self] at this
      simp only [List.length_nil] at this
      exact hne (List.length_eq_zero.mp this)
    have hdedup := dedupCandidates_ne_nil hzip
    have hvals : (dedupCandidates (cands.zip scores)).map (·.2) ≠ [] := by
      simpa using hdedup
    have hsorted :
        ((dedupCandidates (cands.zip scores)).map (·.2)).mergeSort keyGe ≠ [] := by
      intro hz
      have := congrArg List.length hz
      rw [List.length_mergeSort] at this
      simp only [List.length_nil] at this
      exact hvals (List.length_eq_zero.mp this)
    rcases hfin : ((dedupCandidates (cands.zip scores)).map (·.2)).mergeSort keyGe with
      _ | ⟨best, rest⟩
    · exact absurd hfin hsorted
    · refine ⟨best.1, ?_, ?_⟩
      · unfold ai_select_best_name
        rw [if_neg (by simpa using hne)]
        dsimp only
        rw [hfin]
      · have hmem : best ∈ ((dedupCandidates (cands.zip scores)).map (·.2)).mergeSort
            keyGe := by
          rw [hfin]
          exact List.mem_cons_self best rest
        rw [List.mem_mergeSort] at hmem
        obtain ⟨e, he, heq⟩ := List.mem_map.mp hmem
        rcases dedupCandidates_values_sub (cands.zip scores) [] e (by
          simpa [dedupCandidates] using he) with ⟨e₀, he₀, -⟩ | hmem'
        · simp at he₀
        · have : best ∈ cands.zip scores := heq ▸ hmem'
          exact (List.of_mem_zip this).1

/-- Witness for `c10_selector_returns_input_candidate` on a two-candidate
pool. -/
theorem c10_witness :
    ∃ n, ai_select_best_name ["اب جد".data, "ابج ابج ابج".data] [60, 85] = some n ∧
      n ∈ ["اب جد".data, "ابج ابج ابج".data] :=
  c10_selector_returns_input_candidate.2 ["اب جد".data, "ابج ابج ابج".data] [60, 85]
    (by decide) rfl

/-! ### Claim C1 -/

/-- Claim C1 counterexample.  The two-word Arabic candidate passes
`_validate_name_ai`; under the `LSTM neural net` configuration (trust weight
`1.1`, third entry of `ocr_configs`) and OCR data whose single token
contains both words at confidence 100, the advanced confidence is capped at
100 *before* the weight is applied, so the recorded score is `110`, outside
`[0, 100]`.  (The candidate itself is producible by the method: it matches
the structural two-word Arabic pattern and survives cleaning unchanged.) -/
theorem c1_counterexample :
    validate_name_ai "ابجد ابجد".data = true ∧
    ("--oem 1 --psm 6 -l ara+eng", "LSTM neural net", (11 / 10 : Rat)) ∈ ocr_configs ∧
    multiConfigScore "ابجد ابجد".data ⟨["ابجد".data], [100]⟩ (11 / 10) = .ok 110 ∧
    ¬((110 : Rat) ≤ 100) := by
  refine ⟨?_, ?_, ?_, by norm_num⟩
  · norm_num +decide [validate_name_ai, pywords, pywordsAux, countArabic, countEnglish,
      isWS, pyStrip]
  · simp [ocr_configs]
  · norm_num +decide [multiConfigScore, calc_name_confidence_advanced, pywords,
      pywordsAux, countArabic, isWS, isArabicChar, wordOcrBonus, isSubstring, Except.map]

/-- Claim C1, amended: the advanced confidence itself is capped to
`[0, 100]`, and the recorded score — advanced confidence times the
configuration's trust weight — lies in `[0, 110]` (the largest weight is
`1.1`), not `[0, 100]`. -/
theorem c1_amended (name : List Char) (d : OcrData) (cfg desc : String) (w : Rat)
    (hw : (cfg, desc, w) ∈ ocr_configs) (a : Rat)
    (ha : calc_name_confidence_advanced name d = .ok a) :
    (0 ≤ a ∧ a ≤ 100) ∧ 0 ≤ a * w ∧ a * w ≤ 110 := by
  have hbounds : 0 ≤ a ∧ a ≤ 100 := by
    unfold calc_name_confidence_advanced at ha
    dsimp only at ha
    split at ha
    · cases ha
    · injection ha with ha
      constructor
      · rw [← ha]
        exact le_min (by norm_num) (le_max_left 0 _)
      · rw [← ha]
        exact min_le_left _ _
  have hwpos : 0 ≤ w ∧ w ≤ 11 / 10 := by
    simp only [ocr_configs, List.mem_cons, List.not_mem_nil, or_false,
      Prod.mk.injEq] at hw
    rcases hw with ⟨-, -, h⟩ | ⟨-, -, h⟩ | ⟨-, -, h⟩ | ⟨-, -, h⟩ | ⟨-, -, h⟩ <;>
      subst h <;> norm_num
  refine ⟨hbounds, mul_nonneg hbounds.1 hwpos.1, ?_⟩
  calc a * w ≤ 100 * w := mul_le_mul_of_nonneg_right hbounds.2 hwpos.1
    _ ≤ 100 * (11 / 10) := by
        have := hwpos.2
        nlinarith
    _ = 110 := by norm_num

/-- Witness for `c1_amended` at the counterexample's inputs. -/
theorem c1_amended_witness :
    ((0 : Rat) ≤ 100 ∧ (100 : Rat) ≤ 100) ∧
      (0 : Rat) ≤ 100 * (11 / 10) ∧ (100 : Rat) * (11 / 10) ≤ 110 :=
  c1_amended "ابجد ابجد".data ⟨["ابجد".data], [100]⟩ "--oem 1 --psm 6 -l ara+eng"
    "LSTM neural net" (11 / 10) (by simp [ocr_configs]) 100
    (by norm_num +decide [calc_name_confidence_advanced, pywords, pywordsAux,
      countArabic, isWS, isArabicChar, wordOcrBonus, isSubstring])

/-! ### Claim C2 -/

/-- Claim C2 counterexample.  In the `cvEnv` run the front image's name
extraction returns nothing in every invocation, so the stored two-word name
`اب جد` (confidence 90, from the grouping stage) can only have come from the
back image.  Under the claim, cross-validation would re-extract from the
side that was *not* the source — the front image — obtain nothing, and keep
the stored name.  The code instead picks `data['back']` whenever the front
slot is occupied, re-extracts from the back image — the name's own source —
obtains the three-word alternative with confidence 100, and replaces the
name. -/
theorem c2_counterexample :
    (cvEnv.extractName cvFrontFile (some ()) = none ∧
      cvEnv.extractName cvFrontFile none = none) ∧
    (cvEnv.extractNameCV cvFrontFile (some ()) = none ∧
      cvEnv.extractNameCV cvFrontFile none = none) ∧
    [cvBackFile, cvFrontFile].foldl (stepImage cvEnv) [] =
      [("12345".data, ⟨some cvFrontFile, some cvBackFile, some "اب جد".data, 90⟩)] ∧
    (pywords "اب جد".data).length = 2 ∧
    match_cards cvEnv =
      .ok [("12345".data, cvFrontFile, some cvBackFile, some "ابج ابج ابج".data)] := by
  refine ⟨?_, ?_, ?_, by decide, ?_⟩
  · exact ⟨by simp [cvEnv, cvFrontFile, cvBackFile], by simp [cvEnv, cvFrontFile, cvBackFile]⟩
  · exact ⟨by simp [cvEnv, cvFrontFile, cvBackFile], by simp [cvEnv, cvFrontFile, cvBackFile]⟩
  · norm_num +decide [stepImage, cvEnv, cvBackFile, cvFrontFile,
      extract_card_id, extract_card_id_rest, extract_id_from_filename, determine_side,
      lookupRec, updateRec, emptyRec, calc_extraction_confidence, pyTruthy, assignSlot,
      maybeUpgrade, pywords, pywordsAux, countArabic, isWS, isArabicChar, isSubstring,
      backKeywords, frontKeywords, pyLower, stripKeywords, stripKeywordsAux, kwMatch,
      kwList, ciPrefix, collapseSeps, collapseSepsAux, isSep, stripChar, scanFirst,
      matchDigitsExact, matchRunAtLeast, matchTagged, matchDigitsMarker,
      matchMarkerDigits, sideMarkers, isDig, clean_filename_for_id, Char.toLower]
  · norm_num +decide [match_cards, stepImage, cvEnv, cvBackFile, cvFrontFile,
      extract_card_id, extract_card_id_rest, extract_id_from_filename, determine_side,
      lookupRec, updateRec, emptyRec, calc_extraction_confidence, pyTruthy, assignSlot,
      maybeUpgrade, pywords, pywordsAux, countArabic, isWS, isArabicChar, isSubstring,
      backKeywords, frontKeywords, pyLower, stripKeywords, stripKeywordsAux, kwMatch,
      kwList, ciPrefix, collapseSeps, collapseSepsAux, isSep, stripChar, scanFirst,
      matchDigitsExact, matchRunAtLeast, matchTagged, matchDigitsMarker,
      matchMarkerDigits, sideMarkers, isDig, clean_filename_for_id, crossValidate,
      crossValidateRec, cross_other, emitRecords, List.mergeSort, strLe, Char.toLower,
      Bind.bind, Except.bind, Option.map, List.filterMap]

/-- Claim C2, amended: for every record whose stored name is non-empty with
fewer than 3 words, cross-validation re-extracts once from the back image
when the front slot is occupied (regardless of which side the stored name
came from) and does nothing when the front slot is empty; it replaces the
stored name only when the alternative has at least 3 words and strictly
higher confidence.  `crossValidateRecAmendedSpec` is that description
written out; the code's pass equals it, and every successful outcome is
either the unchanged record or such a replacement. -/
theorem c2_amended (Img : Type) (env : Env Img) (files : List PyFile) (r : CardRec) :
    crossValidateRec env files r = crossValidateRecAmendedSpec env files r ∧
    (∀ r', crossValidateRec env files r = .ok r' →
      r' = r ∨ ∃ alt cf, r' = { r with name := some alt, confidence := cf } ∧
        3 ≤ (pywords alt).length ∧ r.confidence < cf) := by
  constructor
  · unfold crossValidateRec crossValidateRecAmendedSpec cross_other
    cases hf : r.front with
    | some p => simp [hf]
    | none => simp [hf]
  · intro r' h
    rcases crossValidateRec_cases env files r with h' | ⟨alt, cf, h', hw, hlt⟩
    · rw [h'] at h
      injection h with h
      exact Or.inl h.symm
    · rw [h'] at h
      injection h with h
      exact Or.inr ⟨alt, cf, h.symm, hw, hlt⟩

/-- Witness for `c2_amended` on a record without a name: cross-validation
leaves it unchanged. -/
theorem c2_amended_witness : emptyRec = emptyRec ∨
    ∃ alt cf, emptyRec = { emptyRec with name := some alt, confidence := cf } ∧
      3 ≤ (pywords alt).length ∧ emptyRec.confidence < cf :=
  (c2_amended Unit errEnv [] emptyRec).2 emptyRec rfl
